import Mathlib

/-!
Verification of the local encrypted file store of the envmap repository.

The Go source is shallowly embedded: byte strings become `List Nat`, the
on-disk state becomes an explicit `FS` record threaded through the
operations, and each fallible OS or library step is driven by an explicit
oracle of outcomes so that every failure path of the source is a reachable
case of the Lean definitions.
-/

namespace Envmap

/-- Environment configuration (provider.EnvConfig from the Go source):
provider name, `path_prefix` and `prefix` fields. -/
structure EnvConfig where
  provider : String
  pathPrefix : String
  Prefix : String
  deriving Repr, DecidableEq

/-- Go `strings.HasPrefix`, at the character level so the kernel can
evaluate it on literals. -/
def goHasPrefix (s p : String) : Bool :=
  p.data.isPrefixOf s.data

/-- Go `strings.HasSuffix`, at the character level. -/
def goHasSuffix (s p : String) : Bool :=
  p.data.isSuffixOf s.data

/-- `ensureTrailingSlash` from the source: append a slash unless one ends
the string already. -/
def ensureTrailingSlash (p : String) : String :=
  if goHasSuffix p "/" then p else p ++ "/"

/-- Go `strings.TrimPrefix`: drop `p` from the front of `s` when it is a
prefix, otherwise return `s` unchanged. -/
def goTrimPrefix (s p : String) : String :=
  if goHasPrefix s p then ⟨s.data.drop p.data.length⟩ else s

/-- `ApplyPrefix` from the source: build the fully-qualified secret name
for a key from the configured `path_prefix` or `prefix`. -/
def ApplyPrefix (envCfg : EnvConfig) (key : String) : String :=
  if envCfg.pathPrefix ≠ "" then ensureTrailingSlash envCfg.pathPrefix ++ key
  else if envCfg.Prefix ≠ "" then envCfg.Prefix ++ key
  else key

/-- `TrimPrefix` from the source: remove the configured prefix from a
stored name when presenting it to the user. -/
def TrimPrefix (envCfg : EnvConfig) (name : String) : String :=
  if envCfg.pathPrefix ≠ "" then goTrimPrefix name (ensureTrailingSlash envCfg.pathPrefix)
  else if envCfg.Prefix ≠ "" then goTrimPrefix name envCfg.Prefix
  else name

/-- `ResolvedPrefix` from the source: the configured prefix in normalized
form. -/
def ResolvedPrefix (envCfg : EnvConfig) : String :=
  if envCfg.pathPrefix ≠ "" then ensureTrailingSlash envCfg.pathPrefix
  else envCfg.Prefix

/-- `ensurePrefixSlash` from the source: a non-empty filter gains a
trailing slash; the empty filter stays empty. -/
def ensurePrefixSlash (pfx : String) : String :=
  if pfx = "" then ""
  else if goHasSuffix pfx "/" then pfx
  else pfx ++ "/"

/-- A Go `map[string]V` as an association list with at most one binding
per key; `entries[name] = value` is `mapInsert`. -/
def mapInsert {α : Type} : List (String × α) → String → α → List (String × α)
  | [], k, v => [(k, v)]
  | (k', v') :: rest, k, v =>
      if k' = k then (k, v) :: rest else (k', v') :: mapInsert rest k v

theorem lookup_cons_eq {α : Type} (k k' : String) (v' : α) (tl : List (String × α)) :
    List.lookup k ((k', v') :: tl) = if k = k' then some v' else List.lookup k tl := by
  by_cases h : k = k'
  · have hb : (k == k') = true := by simp [h]
    simp [List.lookup, hb, h]
  · have hb : (k == k') = false := by simp [h]
    simp [List.lookup, hb, h]

theorem lookup_mapInsert_self {α : Type} (m : List (String × α)) (k : String) (v : α) :
    List.lookup k (mapInsert m k v) = some v := by
  induction m with
  | nil => simp [mapInsert, lookup_cons_eq]
  | cons hd tl ih =>
      obtain ⟨k', v'⟩ := hd
      by_cases h : k' = k
      · subst h
        simp [mapInsert, lookup_cons_eq]
      · simp only [mapInsert, if_neg h]
        rw [lookup_cons_eq, if_neg (fun hh => h hh.symm)]
        exact ih

theorem lookup_mapInsert_ne {α : Type} (m : List (String × α)) (k k' : String) (v : α)
    (h : k' ≠ k) : List.lookup k' (mapInsert m k v) = List.lookup k' m := by
  induction m with
  | nil => simp [mapInsert, lookup_cons_eq, h]
  | cons hd tl ih =>
      obtain ⟨k₀, v₀⟩ := hd
      by_cases hk : k₀ = k
      · subst hk
        have hred : mapInsert ((k₀, v₀) :: tl) k₀ v = (k₀, v) :: tl := by
          simp [mapInsert]
        rw [hred, lookup_cons_eq, lookup_cons_eq, if_neg h, if_neg h]
      · simp only [mapInsert, if_neg hk]
        rw [lookup_cons_eq, lookup_cons_eq]
        by_cases hk' : k' = k₀
        · simp [hk']
        · rw [if_neg hk', if_neg hk']
          exact ih

theorem mapInsert_of_notMem {α : Type} (m : List (String × α)) (k : String) (v : α)
    (h : k ∉ m.map Prod.fst) : mapInsert m k v = m ++ [(k, v)] := by
  induction m with
  | nil => simp [mapInsert]
  | cons hd tl ih =>
      obtain ⟨k', v'⟩ := hd
      simp only [List.map_cons, List.mem_cons] at h
      push_neg at h
      simp [mapInsert, Ne.symm h.1, ih h.2]

theorem lookup_eq_some_of_mem_of_nodup {α : Type} (m : List (String × α)) (k : String)
    (v : α) (hmem : (k, v) ∈ m) (hnd : (m.map Prod.fst).Nodup) :
    List.lookup k m = some v := by
  induction m with
  | nil => simp at hmem
  | cons hd tl ih =>
      obtain ⟨k', v'⟩ := hd
      simp only [List.map_cons, List.nodup_cons] at hnd
      rcases List.mem_cons.mp hmem with h | h
      · injection h with h1 h2
        subst h1
        subst h2
        simp [lookup_cons_eq]
      · have hne : k ≠ k' := by
          rintro rfl
          exact hnd.1 (List.mem_map.mpr ⟨(k, v), h, rfl⟩)
        rw [lookup_cons_eq, if_neg hne]
        exact ih h hnd.2

theorem mem_of_lookup_eq_some {α : Type} (m : List (String × α)) (k : String) (v : α)
    (h : List.lookup k m = some v) : (k, v) ∈ m := by
  induction m with
  | nil => simp [List.lookup] at h
  | cons hd tl ih =>
      obtain ⟨k', v'⟩ := hd
      rw [lookup_cons_eq] at h
      by_cases hk : k = k'
      · rw [if_pos hk] at h
        subst hk
        injection h with h1
        subst h1
        exact List.mem_cons_self _ _
      · rw [if_neg hk] at h
        exact List.mem_cons_of_mem _ (ih h)

/-- The store entries of the local provider, a Go `map[string]string`
(json.Unmarshal fills it with one binding per key). -/
abbrev Entries := List (String × String)

/-- The on-disk state the local provider touches: the store file content
(`none` = the file does not exist) and the content of the temporary file
of an in-flight write (`none` = no temporary file on disk). -/
structure FS where
  store : Option (List Nat)
  tmp : Option (List Nat)
  deriving Repr, DecidableEq

/-- The serialization and encryption functions the local provider composes
(json.MarshalIndent / json.Unmarshal and encrypt / decrypt with the
provider key fixed), passed explicitly so theorems state which of their
properties each claim needs. -/
structure Codec where
  encodeF : Entries → List Nat
  parseF : List Nat → Except String Entries
  encryptF : List Nat → List Nat
  decryptF : List Nat → Except String (List Nat)

/-- Outcome oracle for the fallible OS steps of `writeAllUnlocked`:
`true` = the step succeeds. -/
structure WriteEnv where
  encodeOk : Bool
  encryptOk : Bool
  mkdirOk : Bool
  createOk : Bool
  chmodOk : Bool
  writeOk : Bool
  syncOk : Bool
  closeOk : Bool
  renameOk : Bool
  deriving Repr, DecidableEq

/-- `localFile.readAllUnlocked` from the source: a missing store file or a
zero-length one is the empty store; otherwise decrypt, then parse, each
failure surfaced as an error. `readErr` models a `ReadFile` failure other
than `ErrNotExist` on an existing file. -/
def readAllUnlocked (c : Codec) (readErr : Bool) (fs : FS) : Except String Entries :=
  match fs.store with
  | none => .ok []
  | some raw =>
      if readErr then .error "read local store"
      else if raw = [] then .ok []
      else
        match c.decryptF raw with
        | .error e => .error ("decrypt local store: " ++ e)
        | .ok plaintext =>
            match c.parseF plaintext with
            | .error e => .error ("parse local store: " ++ e)
            | .ok entries => .ok entries

/-- The OS steps of `localFile.writeAllUnlocked` after the ciphertext is
in hand: create the directory, create a temporary file in it, chmod,
write, sync, close, then atomically rename onto the store path; on any
failure the deferred cleanup removes the temporary file and the store
file is not touched. -/
def writeBytes (w : WriteEnv) (ciphertext : List Nat) (fs : FS) :
    Except String Unit × FS :=
  if !w.mkdirOk then (.error "create local store dir", fs)
  else if !w.createOk then (.error "create temp file", fs)
  else
    let fs1 : FS := { fs with tmp := some [] }
    if !w.chmodOk then (.error "chmod temp file", { fs1 with tmp := none })
    else if !w.writeOk then (.error "write temp file", { fs1 with tmp := none })
    else
      let fs2 : FS := { fs1 with tmp := some ciphertext }
      if !w.syncOk then (.error "sync temp file", { fs2 with tmp := none })
      else if !w.closeOk then (.error "close temp file", { fs2 with tmp := none })
      else if !w.renameOk then (.error "rename temp file", { fs2 with tmp := none })
      else (.ok (), { store := some ciphertext, tmp := none })

/-- `localFile.writeAllUnlocked` from the source: encode the mapping,
encrypt it, then run the atomic on-disk write of the ciphertext. -/
def writeAllUnlocked (c : Codec) (w : WriteEnv) (entries : Entries) (fs : FS) :
    Except String Unit × FS :=
  if !w.encodeOk then (.error "encode local store", fs)
  else if !w.encryptOk then (.error "encrypt local store", fs)
  else writeBytes w (c.encryptF (c.encodeF entries)) fs

/-- `localFile.withExclusiveLock` from the source: acquire the OS file
lock, run `fn`, release; a lock-acquisition failure aborts before `fn`
runs, an unlock failure is only logged. The returned `Bool` records
whether `fn` was invoked. -/
def withExclusiveLock {α : Type} (lockOk unlockOk : Bool)
    (fn : FS → Except String α × FS) (fs : FS) : (Except String α × FS) × Bool :=
  if lockOk then (fn fs, true)
  else ((.error "acquire lock: failed", fs), false)

/-- `localFile.Get` from the source: under the lock, read the full mapping
and look the name up as given; absent names are a missing-secret error. -/
def localGet (c : Codec) (lockOk unlockOk readErr : Bool) (name : String) (fs : FS) :
    (Except String String × FS) × Bool :=
  withExclusiveLock lockOk unlockOk (fun fs =>
    match readAllUnlocked c readErr fs with
    | .error e => (.error e, fs)
    | .ok entries =>
        match List.lookup name entries with
        | some v => (.ok v, fs)
        | none => (.error ("missing secret " ++ name), fs)) fs

/-- One iteration of the loop of `localFile.List` from the source: skip an
entry not matching the slash-normalized non-empty filter, otherwise record
it in `out` under its trimmed name. Polymorphic in the entry payload,
since the metadata listing applies the same rules. -/
def listStep {α : Type} (envCfg : EnvConfig) (pfx : String)
    (out : List (String × α)) (nv : String × α) : List (String × α) :=
  if pfx ≠ "" ∧ ¬(goHasPrefix nv.1 (ensurePrefixSlash pfx)) then out
  else mapInsert out (TrimPrefix envCfg nv.1) nv.2

/-- The loop of `localFile.List` from the source: iterate the mapping,
building the output map entry by entry. -/
def listFilterGo {α : Type} (envCfg : EnvConfig) (pfx : String)
    (entries : List (String × α)) : List (String × α) :=
  entries.foldl (listStep envCfg pfx) []

/-- The mapping `List` is specified to return: entries whose stored name
starts with the slash-normalized filter (all entries for the empty
filter), keyed by their trimmed names. -/
def listSpec {α : Type} (envCfg : EnvConfig) (pfx : String)
    (entries : List (String × α)) : List (String × α) :=
  (entries.filter (fun nv => pfx = "" ∨ goHasPrefix nv.1 (ensurePrefixSlash pfx))).map
    (fun nv => (TrimPrefix envCfg nv.1, nv.2))

/-- `localFile.List` from the source: under the lock, read the full
mapping and run the filter-and-trim loop. -/
def localList (c : Codec) (lockOk unlockOk readErr : Bool) (envCfg : EnvConfig)
    (pfx : String) (fs : FS) : (Except String Entries × FS) × Bool :=
  withExclusiveLock lockOk unlockOk (fun fs =>
    match readAllUnlocked c readErr fs with
    | .error e => (.error e, fs)
    | .ok entries => (.ok (listFilterGo envCfg pfx entries), fs)) fs

/-- `localFile.Set` from the source: under the lock, read the full
mapping, overwrite the entry for `name`, and write everything back
atomically. -/
def localSet (c : Codec) (lockOk unlockOk readErr : Bool) (w : WriteEnv)
    (name value : String) (fs : FS) : (Except String Unit × FS) × Bool :=
  withExclusiveLock lockOk unlockOk (fun fs =>
    match readAllUnlocked c readErr fs with
    | .error e => (.error e, fs)
    | .ok entries => writeAllUnlocked c w (mapInsert entries name value) fs) fs

/-- The AEAD primitive behind `cipher.NewGCM`: a nonce size, a `Seal` and
an `Open` (here `unseal`). The repository only composes it; the theorems
take its round-trip behaviour as a hypothesis where they need it. -/
structure AEAD where
  nonceSize : Nat
  sealFn : List Nat → List Nat → List Nat → List Nat
  openFn : List Nat → List Nat → List Nat → Option (List Nat)

/-- Go `aes.NewCipher` succeeds exactly for 16, 24 or 32 byte keys. -/
def aesKeyLenOk (key : List Nat) : Prop :=
  key.length = 16 ∨ key.length = 24 ∨ key.length = 32

instance (key : List Nat) : Decidable (aesKeyLenOk key) := by
  unfold aesKeyLenOk
  infer_instance

/-- `encrypt` from the source: build the AES-GCM AEAD from the key, draw a
fresh random nonce (passed in here, as the sampled bytes), and return
`gcm.Seal(nonce, nonce, plaintext, nil)`, the nonce followed by the sealed
data. -/
def encrypt (A : AEAD) (nonce plaintext key : List Nat) : Except String (List Nat) :=
  if ¬aesKeyLenOk key then .error "crypto aes invalid key size"
  else .ok (nonce ++ A.sealFn key nonce plaintext)

/-- `decrypt` from the source: build the AEAD from the key, reject inputs
shorter than the nonce size, split off the leading nonce and open the
rest; a failed tag check is an authentication error. -/
def decrypt (A : AEAD) (ciphertext key : List Nat) : Except String (List Nat) :=
  if ¬aesKeyLenOk key then .error "crypto aes invalid key size"
  else if ciphertext.length < A.nonceSize then .error "ciphertext too short"
  else
    match A.openFn key (ciphertext.take A.nonceSize) (ciphertext.drop A.nonceSize) with
    | some plaintext => .ok plaintext
    | none => .error "cipher message authentication failed"

/-- Encryption settings for local file storage (provider.EncryptionConfig
from the Go source). -/
structure EncryptionConfig where
  type : String
  keyFile : String
  keyEnv : String
  deriving Repr, DecidableEq

/-- The observable state of the configured key file: the permission bits
`stat` reports (`none` = stat fails) and the bytes a read returns
(`none` = the read fails). -/
structure KeyFileFS where
  statPerm : Option Nat
  readData : Option (List Nat)
  deriving Repr, DecidableEq

/-- A string's bytes, for key material taken from an environment value. -/
def strBytes (s : String) : List Nat :=
  s.toList.map Char.toNat

/-- `loadKeyMaterial` from the source: a configured `key_env` must hold a
non-empty value (no fallback); otherwise the key file must be configured,
stat must succeed, its permissions must have no group or other bits, the
read must succeed and yield at least 16 bytes. `getenv` models
`os.Getenv`, which returns the empty string for unset variables. -/
def loadKeyMaterial (cfg : EncryptionConfig) (getenv : String → String)
    (kfs : KeyFileFS) : Except String (List Nat) :=
  if cfg.keyEnv ≠ "" then
    if getenv cfg.keyEnv ≠ "" then .ok (strBytes (getenv cfg.keyEnv))
    else .error ("key env var " ++ cfg.keyEnv ++ " is empty or not set")
  else if cfg.keyFile = "" then
    .error "no key source provided; set encryption.key_env or encryption.key_file"
  else
    match kfs.statPerm with
    | none => .error "stat key file"
    | some perm =>
        if perm &&& 0o077 ≠ 0 then .error ("key file " ++ cfg.keyFile ++ " is too permissive")
        else
          match kfs.readData with
          | none => .error "read key file"
          | some data =>
              if data.length < 16 then
                .error ("key file " ++ cfg.keyFile ++ " is too short")
              else .ok data

/-- `provider.SecretRecord` from the source: a secret value plus optional
creation metadata; the timestamp is a `Nat` (zero = unknown). -/
structure SecretRecord where
  value : String
  createdAt : Nat
  deriving Repr, DecidableEq

/-- The metadata-bearing store mapping of the local provider. -/
abbrev EntriesM := List (String × SecretRecord)

/-- Modelled from the spec: the serialization and encryption functions of
the metadata-bearing local store; the staged sources hold only the
`MetadataLister` declaration and `TestLocalFileStoresCreatedAt`, not the
implementation. -/
structure CodecM where
  encodeF : EntriesM → List Nat
  parseF : List Nat → Except String EntriesM
  encryptF : List Nat → List Nat
  decryptF : List Nat → Except String (List Nat)

/-- Modelled from the spec: the read path of the metadata-bearing local
store, with the same shape as `readAllUnlocked` (absent or empty store
file reads as empty, then decrypt and parse). -/
def readAllM (c : CodecM) (readErr : Bool) (fs : FS) : Except String EntriesM :=
  match fs.store with
  | none => .ok []
  | some raw =>
      if readErr then .error "read local store"
      else if raw = [] then .ok []
      else
        match c.decryptF raw with
        | .error e => .error ("decrypt local store: " ++ e)
        | .ok plaintext =>
            match c.parseF plaintext with
            | .error e => .error ("parse local store: " ++ e)
            | .ok entries => .ok entries

/-- Modelled from the spec: `Set` on the metadata-bearing store inserts or
overwrites the value under the (already prefixed) name; `created_at` is
fixed per name at first write and preserved by later value updates (the
resolved open question of spec section 9). -/
def setEntryM (m : EntriesM) (name value : String) (now : Nat) : EntriesM :=
  match List.lookup name m with
  | some old => mapInsert m name ⟨value, old.createdAt⟩
  | none => mapInsert m name ⟨value, now⟩

/-- Modelled from the spec: the write path of the metadata-bearing store,
mirroring `writeAllUnlocked` (serialize, encrypt, atomic persist). -/
def writeAllM (c : CodecM) (w : WriteEnv) (entries : EntriesM) (fs : FS) :
    Except String Unit × FS :=
  if !w.encodeOk then (.error "encode local store", fs)
  else if !w.encryptOk then (.error "encrypt local store", fs)
  else writeBytes w (c.encryptF (c.encodeF entries)) fs

/-- Modelled from the spec: `Set` of the metadata-bearing local provider,
a read-modify-write under the exclusive lock. -/
def localSetM (c : CodecM) (lockOk unlockOk readErr : Bool) (w : WriteEnv)
    (name value : String) (now : Nat) (fs : FS) : (Except String Unit × FS) × Bool :=
  withExclusiveLock lockOk unlockOk (fun fs =>
    match readAllM c readErr fs with
    | .error e => (.error e, fs)
    | .ok entries => writeAllM c w (setEntryM entries name value now) fs) fs

/-- Modelled from the spec: `ListWithMetadata` of the local provider, with
the same filtering and prefix rules as `List` (the shared loop
`listFilterGo`), returning value plus creation metadata. -/
def listWithMetadata (c : CodecM) (lockOk unlockOk readErr : Bool) (envCfg : EnvConfig)
    (pfx : String) (fs : FS) : (Except String EntriesM × FS) × Bool :=
  withExclusiveLock lockOk unlockOk (fun fs =>
    match readAllM c readErr fs with
    | .error e => (.error e, fs)
    | .ok entries => (.ok (listFilterGo envCfg pfx entries), fs)) fs

theorem listStep_keep {α : Type} (envCfg : EnvConfig) (pfx : String)
    (acc : List (String × α)) (nv : String × α)
    (h : pfx = "" ∨ goHasPrefix nv.1 (ensurePrefixSlash pfx)) :
    listStep envCfg pfx acc nv = mapInsert acc (TrimPrefix envCfg nv.1) nv.2 := by
  unfold listStep
  rw [if_neg]
  rintro ⟨h1, h2⟩
  rcases h with h | h
  · exact h1 h
  · exact h2 h

theorem listStep_skip {α : Type} (envCfg : EnvConfig) (pfx : String)
    (acc : List (String × α)) (nv : String × α)
    (h : ¬(pfx = "" ∨ goHasPrefix nv.1 (ensurePrefixSlash pfx))) :
    listStep envCfg pfx acc nv = acc := by
  push_neg at h
  unfold listStep
  rw [if_pos]
  exact ⟨h.1, by simpa using h.2⟩

theorem listSpec_cons_keep {α : Type} (envCfg : EnvConfig) (pfx : String)
    (nv : String × α) (rest : List (String × α))
    (h : pfx = "" ∨ goHasPrefix nv.1 (ensurePrefixSlash pfx)) :
    listSpec envCfg pfx (nv :: rest) =
      (TrimPrefix envCfg nv.1, nv.2) :: listSpec envCfg pfx rest := by
  unfold listSpec
  rw [List.filter_cons_of_pos]
  · simp
  · simpa using h

theorem listSpec_cons_skip {α : Type} (envCfg : EnvConfig) (pfx : String)
    (nv : String × α) (rest : List (String × α))
    (h : ¬(pfx = "" ∨ goHasPrefix nv.1 (ensurePrefixSlash pfx))) :
    listSpec envCfg pfx (nv :: rest) = listSpec envCfg pfx rest := by
  unfold listSpec
  rw [List.filter_cons_of_neg]
  simpa using h

theorem foldl_listStep_eq {α : Type} (envCfg : EnvConfig) (pfx : String)
    (entries : List (String × α)) : ∀ acc : List (String × α),
    ((listSpec envCfg pfx entries).map Prod.fst).Nodup →
    (∀ k, k ∈ (listSpec envCfg pfx entries).map Prod.fst → k ∉ acc.map Prod.fst) →
    entries.foldl (listStep envCfg pfx) acc = acc ++ listSpec envCfg pfx entries := by
  induction entries with
  | nil =>
      intro acc _ _
      simp [listSpec]
  | cons nv rest ih =>
      intro acc hnd hdisj
      by_cases hkeep : pfx = "" ∨ goHasPrefix nv.1 (ensurePrefixSlash pfx)
      · rw [listSpec_cons_keep envCfg pfx nv rest hkeep] at hnd hdisj ⊢
        simp only [List.map_cons, List.nodup_cons] at hnd
        have hKacc : TrimPrefix envCfg nv.1 ∉ acc.map Prod.fst :=
          hdisj _ (List.mem_cons_self _ _)
        have hstep : listStep envCfg pfx acc nv = acc ++ [(TrimPrefix envCfg nv.1, nv.2)] := by
          rw [listStep_keep envCfg pfx acc nv hkeep,
            mapInsert_of_notMem acc _ nv.2 hKacc]
        rw [List.foldl_cons, hstep,
          ih (acc ++ [(TrimPrefix envCfg nv.1, nv.2)]) hnd.2 ?_,
          List.append_assoc, List.singleton_append]
        intro k hk
        rw [List.map_append, List.mem_append]
        rintro (hka | hks)
        · exact hdisj k (List.mem_cons_of_mem _ hk) hka
        · simp only [List.map_cons, List.map_nil, List.mem_singleton] at hks
          exact hnd.1 (hks ▸ hk)
      · rw [listSpec_cons_skip envCfg pfx nv rest hkeep] at hnd hdisj ⊢
        rw [List.foldl_cons, listStep_skip envCfg pfx acc nv hkeep]
        exact ih acc hnd hdisj

theorem listFilterGo_eq_listSpec {α : Type} (envCfg : EnvConfig) (pfx : String)
    (entries : List (String × α))
    (hnd : ((listSpec envCfg pfx entries).map Prod.fst).Nodup) :
    listFilterGo envCfg pfx entries = listSpec envCfg pfx entries := by
  unfold listFilterGo
  rw [foldl_listStep_eq envCfg pfx entries [] hnd (by simp), List.nil_append]

theorem writeBytes_ok_state (w : WriteEnv) (ct : List Nat) (fs : FS)
    (h : (writeBytes w ct fs).1 = .ok ()) :
    (writeBytes w ct fs).2 = ⟨some ct, none⟩ := by
  obtain ⟨eo, cro, mo, co, cho, wro, so, clo, ro⟩ := w
  cases mo <;> cases co <;> cases cho <;> cases wro <;> cases so <;> cases clo <;>
    cases ro <;> simp_all [writeBytes]

theorem writeAllUnlocked_ok_state (c : Codec) (w : WriteEnv) (entries : Entries)
    (fs : FS) (h : (writeAllUnlocked c w entries fs).1 = .ok ()) :
    (writeAllUnlocked c w entries fs).2 = ⟨some (c.encryptF (c.encodeF entries)), none⟩ := by
  unfold writeAllUnlocked at h ⊢
  cases he : w.encodeOk <;> cases hc : w.encryptOk <;> simp_all
  exact writeBytes_ok_state w _ fs h

theorem writeAllM_ok_state (c : CodecM) (w : WriteEnv) (entries : EntriesM)
    (fs : FS) (h : (writeAllM c w entries fs).1 = .ok ()) :
    (writeAllM c w entries fs).2 = ⟨some (c.encryptF (c.encodeF entries)), none⟩ := by
  unfold writeAllM at h ⊢
  cases he : w.encodeOk <;> cases hc : w.encryptOk <;> simp_all
  exact writeBytes_ok_state w _ fs h

/-- C7: for every 32-byte key and every plaintext, whenever `encrypt`
succeeds it produces the 12-byte random nonce followed by the AEAD-sealed
data, and `decrypt` of that output under the same key succeeds and
returns exactly the plaintext (given that the AEAD primitive opens what
it sealed). -/
theorem encrypt_decrypt_roundtrip (A : AEAD) (key nonce plaintext : List Nat)
    (hns : A.nonceSize = 12) (hk : key.length = 32) (hn : nonce.length = 12)
    (hA : A.openFn key nonce (A.sealFn key nonce plaintext) = some plaintext) :
    encrypt A nonce plaintext key = .ok (nonce ++ A.sealFn key nonce plaintext) ∧
    decrypt A (nonce ++ A.sealFn key nonce plaintext) key = .ok plaintext := by
  have hkeyok : aesKeyLenOk key := Or.inr (Or.inr hk)
  refine ⟨by simp [encrypt, hkeyok], ?_⟩
  have hlen : ¬(nonce ++ A.sealFn key nonce plaintext).length < A.nonceSize := by
    rw [hns, List.length_append, hn]
    omega
  have htake : (nonce ++ A.sealFn key nonce plaintext).take A.nonceSize = nonce := by
    rw [hns]
    exact List.take_left' hn
  have hdrop : (nonce ++ A.sealFn key nonce plaintext).drop A.nonceSize =
      A.sealFn key nonce plaintext := by
    rw [hns]
    exact List.drop_left' hn
  have hle : A.nonceSize ≤ nonce.length + (A.sealFn key nonce plaintext).length := by
    rw [hns, hn]
    omega
  simp [decrypt, hkeyok, hlen, htake, hdrop, hA, hle]

/-- A toy AEAD instance used to witness the crypto theorems on concrete
inputs: sealing appends a 16-byte tag, opening strips it. -/
def aeadW : AEAD where
  nonceSize := 12
  sealFn := fun _ _ pt => pt ++ List.replicate 16 0
  openFn := fun _ _ ct => if ct.length < 16 then none else some (ct.take (ct.length - 16))

theorem encrypt_decrypt_roundtrip_witness :
    encrypt aeadW (List.replicate 12 2) [5, 6, 7] (List.replicate 32 1) =
      .ok (List.replicate 12 2 ++ aeadW.sealFn (List.replicate 32 1) (List.replicate 12 2) [5, 6, 7]) ∧
    decrypt aeadW
      (List.replicate 12 2 ++ aeadW.sealFn (List.replicate 32 1) (List.replicate 12 2) [5, 6, 7])
      (List.replicate 32 1) = .ok [5, 6, 7] :=
  encrypt_decrypt_roundtrip aeadW (List.replicate 32 1) (List.replicate 12 2) [5, 6, 7]
    rfl (by decide) (by decide) (by decide)

/-- C9: with no key environment variable configured, loading key material
from the configured key file fails when the file content is shorter than
16 bytes, fails when the permission bits include any group or other
access, and succeeds only on an existing, readable file of at least 16
bytes with no group/other permission bits (returning its bytes). -/
theorem loadKeyMaterial_keyFile_policy (cfg : EncryptionConfig)
    (getenv : String → String) (kfs : KeyFileFS)
    (henv : cfg.keyEnv = "") (hfile : cfg.keyFile ≠ "") :
    (∀ perm data, kfs.statPerm = some perm → kfs.readData = some data →
      data.length < 16 → ∃ e, loadKeyMaterial cfg getenv kfs = .error e) ∧
    (∀ perm, kfs.statPerm = some perm → perm &&& 0o077 ≠ 0 →
      ∃ e, loadKeyMaterial cfg getenv kfs = .error e) ∧
    (∀ k, loadKeyMaterial cfg getenv kfs = .ok k →
      ∃ perm data, kfs.statPerm = some perm ∧ kfs.readData = some data ∧
        perm &&& 0o077 = 0 ∧ 16 ≤ data.length ∧ k = data) := by
  refine ⟨?_, ?_, ?_⟩
  · intro perm data hstat hread hlen
    by_cases hp : perm &&& 0o077 ≠ 0 <;>
      simp [loadKeyMaterial, henv, hfile, hstat, hread, hp, hlen]
  · intro perm hstat hp
    simp [loadKeyMaterial, henv, hfile, hstat, hp]
  · intro k hk
    cases hstat : kfs.statPerm with
    | none => simp [loadKeyMaterial, henv, hfile, hstat] at hk
    | some perm =>
        by_cases hp : perm &&& 0o077 ≠ 0
        · simp [loadKeyMaterial, henv, hfile, hstat, hp] at hk
        · cases hread : kfs.readData with
          | none => simp [loadKeyMaterial, henv, hfile, hstat, hp, hread] at hk
          | some data =>
              by_cases hl : data.length < 16
              · simp [loadKeyMaterial, henv, hfile, hstat, hp, hread, hl] at hk
              · refine ⟨perm, data, rfl, rfl, not_not.mp hp, not_lt.mp hl, ?_⟩
                simp [loadKeyMaterial, henv, hfile, hstat, hp, hread, hl] at hk
                exact hk.symm

theorem loadKeyMaterial_keyFile_policy_witness :
    (∃ e, loadKeyMaterial ⟨"aes", "keyfile", ""⟩ (fun _ => "")
      ⟨some 0o644, some (List.replicate 32 0)⟩ = .error e) ∧
    (∃ e, loadKeyMaterial ⟨"aes", "keyfile", ""⟩ (fun _ => "")
      ⟨some 0o600, some (List.replicate 8 0)⟩ = .error e) :=
  ⟨(loadKeyMaterial_keyFile_policy ⟨"aes", "keyfile", ""⟩ (fun _ => "")
      ⟨some 0o644, some (List.replicate 32 0)⟩ rfl (by decide)).2.1
      0o644 rfl (by decide),
   (loadKeyMaterial_keyFile_policy ⟨"aes", "keyfile", ""⟩ (fun _ => "")
      ⟨some 0o600, some (List.replicate 8 0)⟩ rfl (by decide)).1
      0o600 (List.replicate 8 0) rfl rfl (by decide)⟩

/-- C10: when `key_env` is configured but the variable is unset or empty
in the process environment, loading key material fails with the
key-env error for every state of the key file, never falling back to a
configured key file. -/
theorem loadKeyMaterial_env_no_fallback (cfg : EncryptionConfig)
    (getenv : String → String) (kfs : KeyFileFS)
    (henv : cfg.keyEnv ≠ "") (hval : getenv cfg.keyEnv = "") :
    loadKeyMaterial cfg getenv kfs =
      .error ("key env var " ++ cfg.keyEnv ++ " is empty or not set") := by
  simp [loadKeyMaterial, henv, hval]

theorem loadKeyMaterial_env_no_fallback_witness :
    loadKeyMaterial ⟨"aes", "goodkeyfile", "ENVMAP_KEY"⟩ (fun _ => "")
      ⟨some 0o600, some (List.replicate 32 7)⟩ =
      .error ("key env var " ++ "ENVMAP_KEY" ++ " is empty or not set") :=
  loadKeyMaterial_env_no_fallback ⟨"aes", "goodkeyfile", "ENVMAP_KEY"⟩ (fun _ => "")
    ⟨some 0o600, some (List.replicate 32 7)⟩ (by decide) rfl

/-- C3: for Get, List and Set (all built on `withExclusiveLock`), a failed
lock acquisition returns the lock-acquisition error, never invokes the
supplied read-modify-write function, and leaves the store state unchanged;
when the lock is acquired, the operation result does not depend on whether
the later unlock succeeds. -/
theorem withExclusiveLock_lock_spec {α : Type} (c : Codec) (envCfg : EnvConfig)
    (lockOk unlockOk readErr : Bool) (w : WriteEnv) (name value pfx : String)
    (fn : FS → Except String α × FS) (fs : FS) :
    (lockOk = false →
      (withExclusiveLock lockOk unlockOk fn fs).1.1 = .error "acquire lock: failed" ∧
      (withExclusiveLock lockOk unlockOk fn fs).1.2 = fs ∧
      (withExclusiveLock lockOk unlockOk fn fs).2 = false ∧
      (localGet c lockOk unlockOk readErr name fs).2 = false ∧
      (localGet c lockOk unlockOk readErr name fs).1.2 = fs ∧
      (localList c lockOk unlockOk readErr envCfg pfx fs).2 = false ∧
      (localList c lockOk unlockOk readErr envCfg pfx fs).1.2 = fs ∧
      (localSet c lockOk unlockOk readErr w name value fs).2 = false ∧
      (localSet c lockOk unlockOk readErr w name value fs).1.2 = fs) ∧
    (lockOk = true → ∀ unlockOk' : Bool,
      withExclusiveLock lockOk unlockOk fn fs = withExclusiveLock lockOk unlockOk' fn fs ∧
      (withExclusiveLock lockOk unlockOk fn fs).1 = fn fs) := by
  constructor
  · intro h
    subst h
    simp [withExclusiveLock, localGet, localList, localSet]
  · intro h unlockOk'
    subst h
    simp [withExclusiveLock]

theorem withExclusiveLock_lock_spec_witness :
    (withExclusiveLock false true (fun fs => (Except.ok "x", fs)) ⟨none, none⟩).2 = false ∧
    (withExclusiveLock false true (fun fs => (Except.ok "x", fs)) ⟨none, none⟩).1.2 =
      (⟨none, none⟩ : FS) ∧
    (withExclusiveLock true false (fun fs => (Except.ok "x", fs)) ⟨none, none⟩).1 =
      (Except.ok "x", (⟨none, none⟩ : FS)) :=
  ⟨((withExclusiveLock_lock_spec ⟨fun _ => [], fun _ => .ok [], fun _ => [], fun _ => .ok []⟩
        ⟨"", "", ""⟩ false true false ⟨true, true, true, true, true, true, true, true, true⟩
        "n" "v" "p" (fun fs => (Except.ok "x", fs)) ⟨none, none⟩).1 rfl).2.2.1,
   ((withExclusiveLock_lock_spec ⟨fun _ => [], fun _ => .ok [], fun _ => [], fun _ => .ok []⟩
        ⟨"", "", ""⟩ false true false ⟨true, true, true, true, true, true, true, true, true⟩
        "n" "v" "p" (fun fs => (Except.ok "x", fs)) ⟨none, none⟩).1 rfl).2.1,
   ((withExclusiveLock_lock_spec ⟨fun _ => [], fun _ => .ok [], fun _ => [], fun _ => .ok []⟩
        ⟨"", "", ""⟩ true false false ⟨true, true, true, true, true, true, true, true, true⟩
        "n" "v" "p" (fun fs => (Except.ok "x", fs)) ⟨none, none⟩).2 rfl false).2⟩

/-- C8: a missing store file reads as the empty mapping with no error, as
does an existing zero-length one; any other content is decrypted then
parsed, a decryption failure or a parse failure is surfaced as an error of
the read, and only a successful decrypt-then-parse yields a mapping. -/
theorem readAllUnlocked_spec (c : Codec) (tmp0 : Option (List Nat)) :
    readAllUnlocked c false ⟨none, tmp0⟩ = .ok [] ∧
    readAllUnlocked c false ⟨some [], tmp0⟩ = .ok [] ∧
    (∀ raw e, raw ≠ [] → c.decryptF raw = .error e →
      readAllUnlocked c false ⟨some raw, tmp0⟩ = .error ("decrypt local store: " ++ e)) ∧
    (∀ raw plaintext e, raw ≠ [] → c.decryptF raw = .ok plaintext →
      c.parseF plaintext = .error e →
      readAllUnlocked c false ⟨some raw, tmp0⟩ = .error ("parse local store: " ++ e)) ∧
    (∀ raw plaintext m, raw ≠ [] → c.decryptF raw = .ok plaintext →
      c.parseF plaintext = .ok m →
      readAllUnlocked c false ⟨some raw, tmp0⟩ = .ok m) := by
  refine ⟨rfl, by simp [readAllUnlocked], ?_, ?_, ?_⟩ <;>
    (intros; simp [readAllUnlocked, *])

/-- A concrete codec whose decryption fails, for the C8 witness. -/
def c8Codec : Codec where
  encodeF := fun _ => [1]
  parseF := fun _ => .error "bad json"
  encryptF := fun _ => [2]
  decryptF := fun _ => .error "bad tag"

theorem readAllUnlocked_spec_witness :
    readAllUnlocked c8Codec false ⟨none, none⟩ = .ok [] ∧
    readAllUnlocked c8Codec false ⟨some [9], none⟩ =
      .error ("decrypt local store: " ++ "bad tag") :=
  ⟨(readAllUnlocked_spec c8Codec none).1,
   (readAllUnlocked_spec c8Codec none).2.2.1 [9] "bad tag" (by decide) rfl⟩

/-- C2: whenever any step of the write path before the final rename fails
(encoding, encryption, directory creation, temp-file creation, chmod,
write, sync or close), the write returns an error, the temporary file is
removed, and the store file content is exactly what it was before. -/
theorem writeAllUnlocked_failure_atomic (c : Codec) (w : WriteEnv) (entries : Entries)
    (fs : FS) (htmp : fs.tmp = none)
    (hfail : w.encodeOk = false ∨ w.encryptOk = false ∨ w.mkdirOk = false ∨
      w.createOk = false ∨ w.chmodOk = false ∨ w.writeOk = false ∨
      w.syncOk = false ∨ w.closeOk = false) :
    (∃ e, (writeAllUnlocked c w entries fs).1 = .error e) ∧
    (writeAllUnlocked c w entries fs).2.store = fs.store ∧
    (writeAllUnlocked c w entries fs).2.tmp = none := by
  obtain ⟨fsStore, fsTmp⟩ := fs
  simp only at htmp
  subst htmp
  obtain ⟨eo, cro, mo, co, cho, wro, so, clo, ro⟩ := w
  simp only at hfail
  cases eo <;> cases cro <;> cases mo <;> cases co <;> cases cho <;> cases wro <;>
    cases so <;> cases clo <;>
    simp_all [writeAllUnlocked, writeBytes]

theorem writeAllUnlocked_failure_atomic_witness :
    (∃ e, (writeAllUnlocked c8Codec ⟨true, true, true, true, false, true, true, true, true⟩
      [] ⟨some [9], none⟩).1 = .error e) ∧
    (writeAllUnlocked c8Codec ⟨true, true, true, true, false, true, true, true, true⟩
      [] ⟨some [9], none⟩).2.store = some [9] ∧
    (writeAllUnlocked c8Codec ⟨true, true, true, true, false, true, true, true, true⟩
      [] ⟨some [9], none⟩).2.tmp = none :=
  writeAllUnlocked_failure_atomic c8Codec
    ⟨true, true, true, true, false, true, true, true, true⟩ [] ⟨some [9], none⟩ rfl
    (Or.inr (Or.inr (Or.inr (Or.inr (Or.inl rfl)))))

/-- C6: a successful `Set(name, value)` persists exactly the prior mapping
with the entry for `name` inserted or overwritten: reading the store back
yields that merged mapping, in which `name` holds `value` and every other
name is bound exactly as before. -/
theorem localSet_merge (c : Codec) (lockOk unlockOk readErr : Bool) (w : WriteEnv)
    (name value : String) (fs : FS) (m : Entries)
    (hread : readAllUnlocked c readErr fs = .ok m)
    (hrt1 : c.decryptF (c.encryptF (c.encodeF (mapInsert m name value))) =
      .ok (c.encodeF (mapInsert m name value)))
    (hrt2 : c.parseF (c.encodeF (mapInsert m name value)) = .ok (mapInsert m name value))
    (hne : c.encryptF (c.encodeF (mapInsert m name value)) ≠ [])
    (hok : (localSet c lockOk unlockOk readErr w name value fs).1.1 = .ok ()) :
    readAllUnlocked c false (localSet c lockOk unlockOk readErr w name value fs).1.2 =
      .ok (mapInsert m name value) ∧
    List.lookup name (mapInsert m name value) = some value ∧
    ∀ other, other ≠ name →
      List.lookup other (mapInsert m name value) = List.lookup other m := by
  cases lockOk with
  | false => simp [localSet, withExclusiveLock] at hok
  | true =>
      have hfn : (localSet c true unlockOk readErr w name value fs).1 =
          writeAllUnlocked c w (mapInsert m name value) fs := by
        simp [localSet, withExclusiveLock, hread]
      rw [hfn] at hok ⊢
      have hstate := writeAllUnlocked_ok_state c w (mapInsert m name value) fs hok
      rw [hstate]
      refine ⟨by simp [readAllUnlocked, hne, hrt1, hrt2], lookup_mapInsert_self m name value, ?_⟩
      intro other hother
      exact lookup_mapInsert_ne m name other value hother

/-- A concrete codec for the C6 witness, hard-wired to the mapping the
witness writes. -/
def c6Codec : Codec where
  encodeF := fun _ => [1]
  parseF := fun _ => .ok [("K", "v")]
  encryptF := fun _ => [2]
  decryptF := fun _ => .ok [1]

theorem localSet_merge_witness :
    readAllUnlocked c6Codec false
      (localSet c6Codec true true false ⟨true, true, true, true, true, true, true, true, true⟩
        "K" "v" ⟨none, none⟩).1.2 = .ok [("K", "v")] ∧
    List.lookup "K" [("K", "v")] = some "v" ∧
    List.lookup "X" [("K", "v")] = List.lookup "X" ([] : Entries) :=
  ⟨(localSet_merge c6Codec true true false
      ⟨true, true, true, true, true, true, true, true, true⟩ "K" "v" ⟨none, none⟩ []
      rfl rfl rfl (by decide) rfl).1,
   (localSet_merge c6Codec true true false
      ⟨true, true, true, true, true, true, true, true, true⟩ "K" "v" ⟨none, none⟩ []
      rfl rfl rfl (by decide) rfl).2.1,
   (localSet_merge c6Codec true true false
      ⟨true, true, true, true, true, true, true, true, true⟩ "K" "v" ⟨none, none⟩ []
      rfl rfl rfl (by decide) rfl).2.2 "X" (by decide)⟩

/-- A codec returning a store in which two names trim to the same key,
for the C5 counterexample. -/
def cCollCodec : Codec where
  encodeF := fun _ => [1]
  parseF := fun _ => .ok [("/app/dev/KEY", "v"), ("KEY", "w")]
  encryptF := fun _ => [2]
  decryptF := fun _ => .ok [1]

/-- C5 counterexample: with pathPrefix `/app/dev`, the store holding both
`/app/dev/KEY` and `KEY` and the empty filter, both stored names trim to
`KEY`, so the loop's map assignment keeps only the later entry: `List("")`
returns a single-entry mapping, not all (trimmed) entries — the claim
fails as stated on colliding stores. -/
theorem localList_collision_counterexample :
    readAllUnlocked cCollCodec false ⟨some [3], none⟩ =
      .ok [("/app/dev/KEY", "v"), ("KEY", "w")] ∧
    (localList cCollCodec true true false ⟨"", "/app/dev", ""⟩ "" ⟨some [3], none⟩).1.1 =
      .ok [("KEY", "w")] ∧
    listSpec ⟨"", "/app/dev", ""⟩ "" [("/app/dev/KEY", "v"), ("KEY", "w")] =
      [("KEY", "v"), ("KEY", "w")] ∧
    [("KEY", "w")] ≠ ([("KEY", "v"), ("KEY", "w")] : Entries) := by
  refine ⟨rfl, ?_, by decide, by decide⟩
  simp [localList, withExclusiveLock, readAllUnlocked, cCollCodec, listFilterGo,
    listStep]
  decide

/-- C5 (amended): when the trimmed names of the matching entries are
pairwise distinct (the well-formed-store case; otherwise a later entry
overwrites an earlier one under their shared trimmed key), `List(prefix)`
returns exactly the stored entries whose name starts with the
slash-normalized filter, each keyed by its name with the configured prefix
stripped; the empty filter then returns every entry. -/
theorem localList_exact (c : Codec) (unlockOk readErr : Bool) (envCfg : EnvConfig)
    (pfx : String) (fs : FS) (m : Entries)
    (hread : readAllUnlocked c readErr fs = .ok m)
    (hnd : ((listSpec envCfg pfx m).map Prod.fst).Nodup) :
    (localList c true unlockOk readErr envCfg pfx fs).1.1 = .ok (listSpec envCfg pfx m) ∧
    (pfx = "" → (localList c true unlockOk readErr envCfg pfx fs).1.1 =
      .ok (m.map (fun nv => (TrimPrefix envCfg nv.1, nv.2)))) := by
  have h1 : (localList c true unlockOk readErr envCfg pfx fs).1.1 =
      .ok (listFilterGo envCfg pfx m) := by
    simp [localList, withExclusiveLock, hread]
  constructor
  · rw [h1, listFilterGo_eq_listSpec envCfg pfx m hnd]
  · intro hp
    subst hp
    rw [h1, listFilterGo_eq_listSpec envCfg "" m hnd]
    have hall : listSpec envCfg "" m = m.map (fun nv => (TrimPrefix envCfg nv.1, nv.2)) := by
      unfold listSpec
      rw [List.filter_eq_self.mpr]
      intro a _
      simp
    rw [hall]

/-- A concrete codec for the C5 witness, returning a two-entry mapping of
which only one matches the filter. -/
def c5Codec : Codec where
  encodeF := fun _ => [1]
  parseF := fun _ => .ok [("/app/dev/KEY", "v"), ("other", "w")]
  encryptF := fun _ => [2]
  decryptF := fun _ => .ok [1]

theorem localList_exact_witness :
    (localList c5Codec true true false ⟨"", "/app/dev", ""⟩ "/app/dev"
      ⟨some [3], none⟩).1.1 = .ok [("KEY", "v")] :=
  (localList_exact c5Codec true false ⟨"", "/app/dev", ""⟩ "/app/dev" ⟨some [3], none⟩
    [("/app/dev/KEY", "v"), ("other", "w")] rfl (by decide)).1

/-- Concrete data refuting the claim that `localFile.Get` itself applies
the name-prefixing transform: the store holds the prefixed name, the
caller asks for the bare name. -/
def c4Codec : Codec where
  encodeF := fun _ => [1]
  parseF := fun _ => .ok [("/app/dev/KEY", "v")]
  encryptF := fun _ => [2]
  decryptF := fun _ => .ok [1]

/-- C4 counterexample: the decrypted mapping holds the prefixed name
`/app/dev/KEY` with value `v`, and `ApplyPrefix` maps `KEY` to exactly
that stored name, yet `Get("KEY")` on the local provider fails with the
missing-secret error instead of returning `v`: `localFile.Get` looks the
supplied name up as given and applies no prefixing transform. -/
theorem localGet_counterexample :
    readAllUnlocked c4Codec false ⟨some [3], none⟩ = .ok [("/app/dev/KEY", "v")] ∧
    ApplyPrefix ⟨"local", "/app/dev", ""⟩ "KEY" = "/app/dev/KEY" ∧
    List.lookup (ApplyPrefix ⟨"local", "/app/dev", ""⟩ "KEY") [("/app/dev/KEY", "v")] =
      some "v" ∧
    (localGet c4Codec true true false "KEY" ⟨some [3], none⟩).1.1 =
      .error ("missing secret " ++ "KEY") := by
  refine ⟨rfl, by decide, by decide, ?_⟩
  simp [localGet, withExclusiveLock, readAllUnlocked, c4Codec, lookup_cons_eq]

/-- C4 (amended): `Get(name)` on the local provider looks `name` up in the
decrypted mapping exactly as supplied — the prefixing transform is applied
by the caller before the call — returning the stored value when the
supplied name is present and the missing-secret error when it is
absent. -/
theorem localGet_lookup_as_given (c : Codec) (unlockOk readErr : Bool)
    (name : String) (fs : FS) (m : Entries)
    (hread : readAllUnlocked c readErr fs = .ok m) :
    (∀ v, List.lookup name m = some v →
      (localGet c true unlockOk readErr name fs).1.1 = .ok v) ∧
    (List.lookup name m = none →
      (localGet c true unlockOk readErr name fs).1.1 =
        .error ("missing secret " ++ name)) := by
  constructor
  · intro v hv
    simp [localGet, withExclusiveLock, hread, hv]
  · intro hv
    simp [localGet, withExclusiveLock, hread, hv]

theorem localGet_lookup_as_given_witness :
    (localGet c4Codec true true false "/app/dev/KEY" ⟨some [3], none⟩).1.1 = .ok "v" :=
  (localGet_lookup_as_given c4Codec true false "/app/dev/KEY" ⟨some [3], none⟩
    [("/app/dev/KEY", "v")] rfl).1 "v" (by decide)

/-- C1: after a successful `Set(name, value)` on the metadata-bearing
local store, a fresh provider instance reading the same store path (the
file-system state the write left behind) recovers exactly the merged
mapping, its `ListWithMetadata(prefix)` — the same filtering and prefix
rules as `List` — returns that mapping filtered and trimmed, and the entry
for `name` carries `value` together with the persisted `created_at`
(preserved from the prior entry, or the write time on first create). -/
theorem localSetM_persist_metadata (c : CodecM) (lockOk unlockOk readErr : Bool)
    (w : WriteEnv) (envCfg : EnvConfig) (name value : String) (now : Nat)
    (pfx : String) (fs : FS) (m : EntriesM)
    (hread : readAllM c readErr fs = .ok m)
    (hrt1 : c.decryptF (c.encryptF (c.encodeF (setEntryM m name value now))) =
      .ok (c.encodeF (setEntryM m name value now)))
    (hrt2 : c.parseF (c.encodeF (setEntryM m name value now)) =
      .ok (setEntryM m name value now))
    (hne : c.encryptF (c.encodeF (setEntryM m name value now)) ≠ [])
    (hok : (localSetM c lockOk unlockOk readErr w name value now fs).1.1 = .ok ())
    (hmatch : pfx = "" ∨ goHasPrefix name (ensurePrefixSlash pfx))
    (hnd : ((listSpec envCfg pfx (setEntryM m name value now)).map Prod.fst).Nodup) :
    readAllM c false (localSetM c lockOk unlockOk readErr w name value now fs).1.2 =
      .ok (setEntryM m name value now) ∧
    (listWithMetadata c true unlockOk false envCfg pfx
      (localSetM c lockOk unlockOk readErr w name value now fs).1.2).1.1 =
      .ok (listSpec envCfg pfx (setEntryM m name value now)) ∧
    List.lookup (TrimPrefix envCfg name) (listSpec envCfg pfx (setEntryM m name value now)) =
      some ⟨value, match List.lookup name m with
                   | some old => old.createdAt
                   | none => now⟩ := by
  cases lockOk with
  | false => simp [localSetM, withExclusiveLock] at hok
  | true =>
      have hfn : (localSetM c true unlockOk readErr w name value now fs).1 =
          writeAllM c w (setEntryM m name value now) fs := by
        simp [localSetM, withExclusiveLock, hread]
      rw [hfn] at hok ⊢
      have hstate := writeAllM_ok_state c w (setEntryM m name value now) fs hok
      rw [hstate]
      have hreadBack : readAllM c false
          (⟨some (c.encryptF (c.encodeF (setEntryM m name value now))), none⟩ : FS) =
          .ok (setEntryM m name value now) := by
        simp [readAllM, hne, hrt1, hrt2]
      refine ⟨hreadBack, ?_, ?_⟩
      · simp only [listWithMetadata, withExclusiveLock, if_pos, hreadBack]
        rw [listFilterGo_eq_listSpec envCfg pfx _ hnd]
      · have hlook : List.lookup name (setEntryM m name value now) =
            some ⟨value, match List.lookup name m with
                         | some old => old.createdAt
                         | none => now⟩ := by
          cases hm : List.lookup name m with
          | some old =>
              unfold setEntryM
              rw [hm]
              exact lookup_mapInsert_self m name ⟨value, old.createdAt⟩
          | none =>
              unfold setEntryM
              rw [hm]
              exact lookup_mapInsert_self m name ⟨value, now⟩
        have hmem := mem_of_lookup_eq_some _ _ _ hlook
        have hmemSpec : (TrimPrefix envCfg name,
            (⟨value, match List.lookup name m with
                     | some old => old.createdAt
                     | none => now⟩ : SecretRecord)) ∈
            listSpec envCfg pfx (setEntryM m name value now) := by
          unfold listSpec
          refine List.mem_map.mpr ⟨_, List.mem_filter.mpr ⟨hmem, ?_⟩, rfl⟩
          simpa using hmatch
        exact lookup_eq_some_of_mem_of_nodup _ _ _ hmemSpec hnd

/-- A concrete metadata codec for the C1 witness, hard-wired to the
record the witness writes. -/
def c1Codec : CodecM where
  encodeF := fun _ => [1]
  parseF := fun _ => .ok [("/app/dev/KEY", ⟨"pg", 42⟩)]
  encryptF := fun _ => [2]
  decryptF := fun _ => .ok [1]

theorem localSetM_persist_metadata_witness :
    readAllM c1Codec false
      (localSetM c1Codec true true false ⟨true, true, true, true, true, true, true, true, true⟩
        "/app/dev/KEY" "pg" 42 ⟨none, none⟩).1.2 =
      .ok [("/app/dev/KEY", ⟨"pg", 42⟩)] ∧
    (listWithMetadata c1Codec true true false ⟨"", "/app/dev", ""⟩ "/app/dev"
      (localSetM c1Codec true true false ⟨true, true, true, true, true, true, true, true, true⟩
        "/app/dev/KEY" "pg" 42 ⟨none, none⟩).1.2).1.1 =
      .ok [("KEY", ⟨"pg", 42⟩)] ∧
    List.lookup "KEY" [("KEY", (⟨"pg", 42⟩ : SecretRecord))] = some ⟨"pg", 42⟩ :=
  localSetM_persist_metadata c1Codec true true false
    ⟨true, true, true, true, true, true, true, true, true⟩ ⟨"", "/app/dev", ""⟩
    "/app/dev/KEY" "pg" 42 "/app/dev" ⟨none, none⟩ [] rfl rfl rfl (by decide) rfl
    (Or.inr (by decide)) (by decide)

end Envmap
